import Mathlib

/-!
Verification of the snarkVM integer `pow_wrapped` circuit gadget
(`circuits/types/integers/src/pow_wrapped.rs`) and of the `Call`
instruction byte codec
(`synthesizer/program/src/instruction/operation/call.rs`), over a
shallow embedding of the source into Lean.

Integers are modelled at the representation level: a `w`-bit integer's
ejected value is the natural number below `2 ^ w` encoded by its
little-endian wire bits; two's-complement wrapping arithmetic on a
fixed width coincides with arithmetic modulo `2 ^ w` on those
representations, for both signed and unsigned instantiations.
-/

namespace SnarkVM

/-! ## Definitions -/

/-- Visibility mode of a circuit value: `Constant`, `Public`, or `Private`. -/
inductive Mode where
  | Constant : Mode
  | Public : Mode
  | Private : Mode
deriving DecidableEq, Repr

/-- A circuit integer: an operand-level visibility mode together with the
little-endian list of wire bits (index 0 = least significant).  The declared
bit-width of the integer is `bits_le.length`. -/
structure CInteger where
  mode : Mode
  bits_le : List Bool
deriving DecidableEq, Repr

/-- The natural number encoded by a little-endian bit list. -/
def natOfBitsLe : List Bool → Nat
  | [] => 0
  | b :: rest => (if b then 1 else 0) + 2 * natOfBitsLe rest

/-- Modelled from the spec: the wrapped-multiplication primitive
(`mul_wrapped`, a dependency of `pow_wrapped` that lives outside the
provided sources) "produces an Integer whose value equals the native
wrapping (modulo 2^bits) result" (spec section 2). -/
def mul_wrapped (w a b : Nat) : Nat := (a * b) % 2 ^ w

/-- Modelled from the spec: the ternary/select gadget (spec section 4.2)
returns `if_true` when the control bit is set and `if_false` otherwise. -/
def ternary (bit : Bool) (if_true if_false : Nat) : Nat :=
  if bit then if_true else if_false

/-- Modelled from the spec: the `to_u32` cast used by the constant fast path
(num-traits `ToPrimitive`, outside the provided sources) succeeds exactly
when the value fits in 32 bits. -/
def to_u32 (v : Nat) : Option Nat := if v < 2 ^ 32 then some v else none

/-- Modelled from the spec: the loop of Rust's native `wrapping_pow`
(spec section 4.3, "repeated wrapped squaring/multiplication"), invoked by
the constant fast path.  `acc` and `base` are the running accumulator and
square; the loop runs while `1 < exp` and finishes with one last wrapped
multiplication. -/
def wrappingPowAux (w acc base exp : Nat) : Nat :=
  if 1 < exp then
    wrappingPowAux w (if exp % 2 = 1 then acc * base % 2 ^ w else acc)
      (base * base % 2 ^ w) (exp / 2)
  else
    acc * base % 2 ^ w
termination_by exp
decreasing_by exact Nat.div_lt_self (by omega) (by omega)

/-- Modelled from the spec: Rust's native `wrapping_pow` — returns `1` on a
zero exponent, otherwise runs the square-and-multiply loop. -/
def wrapping_pow (w base exp : Nat) : Nat :=
  if exp = 0 then 1 else wrappingPowAux w 1 base exp

/-- One synthesis-level operation performed by the general-path ladder of
`pow_wrapped`: a wrapped squaring of the running result, a wrapped
multiplication of the result by the base, or a ternary selection driven by
one exponent bit. -/
inductive LadderOp where
  | square : LadderOp
  | mulBase : LadderOp
  | select : Bool → LadderOp
deriving DecidableEq, Repr

/-- One iteration of the ladder body of `pow_wrapped` (source lines 31-34):
`result = result.mul_wrapped(result); result = ternary(bit,
result.mul_wrapped(self), result)`, recording the operations performed. -/
def powStep (w base : Nat) (st : Nat × List LadderOp) (bit : Bool) :
    Nat × List LadderOp :=
  let r1 := mul_wrapped w st.1 st.1
  let r2 := mul_wrapped w r1 base
  (ternary bit r2 r1, st.2 ++ [LadderOp.square, LadderOp.mulBase, LadderOp.select bit])

/-- The `pow_wrapped` gadget (source lines 23-37).  If both operands are
constant, the fast path ejects the native values, casts the exponent to
`u32` (`none` models the `unwrap` panic) and computes the native wrapping
power, performing no ladder operations.  Otherwise the square-and-multiply
ladder runs over the exponent's bits from most significant to least
significant, starting from `Self::one()`. -/
def pow_wrapped (w : Nat) (a b : CInteger) : Option (Nat × List LadderOp) :=
  if a.mode = Mode.Constant ∧ b.mode = Mode.Constant then
    (to_u32 (natOfBitsLe b.bits_le)).map
      (fun e => (wrapping_pow w (natOfBitsLe a.bits_le) e, []))
  else
    some (List.foldl (powStep w (natOfBitsLe a.bits_le)) (1, []) b.bits_le.reverse)

/-- The operations performed by the ladder on a given (already reversed,
most-significant-first) list of exponent bits: each iteration contributes one
squaring, one multiplication by the base, and one selection on that bit. -/
def ladderTrace : List Bool → List LadderOp
  | [] => []
  | bit :: rest =>
      LadderOp.square :: LadderOp.mulBase :: LadderOp.select bit :: ladderTrace rest

def isSquare : LadderOp → Bool
  | LadderOp.square => true
  | _ => false

def isMulBase : LadderOp → Bool
  | LadderOp.mulBase => true
  | _ => false

def isSelect : LadderOp → Bool
  | LadderOp.select _ => true
  | _ => false

/-- Modelled from the spec: `CircuitType<T>` "tags a value as either a known
Constant (carrying the native value) or an opaque circuit-mode placeholder
(Public/Private, value unknown until synthesis)" (spec section 3); the
environment's definition lives outside the provided sources.  The carried
value is the ejected native value of the constant exponent. -/
inductive CircuitTypeI where
  | Constant : Nat → CircuitTypeI
  | Public : CircuitTypeI
  | Private : CircuitTypeI
deriving DecidableEq, Repr

/-- Modelled from the spec: the mode of a `CircuitType` is determined by its
variant. -/
def CircuitTypeI.mode : CircuitTypeI → Mode
  | CircuitTypeI.Constant _ => Mode.Constant
  | CircuitTypeI.Public => Mode.Public
  | CircuitTypeI.Private => Mode.Private

/-- Output-mode inference for `pow_wrapped` (source lines 65-82), matching on
the base mode and on the exponent's `CircuitType` (its mode and, for a
constant, its carried value).  The `E::halt` call in the source is modelled
as `Except.error`. -/
def output_mode (baseMode : Mode) (expType : CircuitTypeI) : Except String Mode :=
  match baseMode, expType.mode, expType with
  | Mode.Constant, Mode.Constant, _ => Except.ok Mode.Constant
  | Mode.Constant, m, _ =>
      match m with
      | Mode.Constant => Except.ok Mode.Constant
      | _ => Except.ok Mode.Private
  | _, Mode.Constant, t =>
      match t with
      | CircuitTypeI.Constant v =>
          Except.ok (if v = 0 then Mode.Constant else Mode.Private)
      | _ =>
          Except.error
            ("The constant is required for the output mode of pow_wrapped with a constant.")
  | _, _, _ => Except.ok Mode.Private

/-- The little-endian `w`-bit encoding of a natural number. -/
def bitsLeOfNat : Nat → Nat → List Bool
  | 0, _ => []
  | w + 1, v => (v % 2 = 1) :: bitsLeOfNat w (v / 2)

/-- Modelled from the spec: the `witness!` macro used by the constant fast
path ejects the operands, evaluates the native closure and returns "a
Constant-wrapped Integer" (spec section 4.3); the macro's definition lives
outside the provided sources. -/
def witnessConstant (w v : Nat) : CInteger :=
  { mode := Mode.Constant, bits_le := bitsLeOfNat w v }

/-- Modelled from the spec: a `Count` is "a 4-tuple (num_constants,
num_public, num_private, num_constraints); either an exact value (`is`) or
an upper bound (`less_than`)" (spec section 3).  Mirrors the source's
`Count::is(..)` four-argument constructor. -/
inductive Count where
  | is : Nat → Nat → Nat → Nat → Count
  | lessThan : Nat → Nat → Nat → Nat → Count
deriving DecidableEq, Repr

def Count.components : Count → Nat × Nat × Nat × Nat
  | Count.is a b c d => (a, b, c, d)
  | Count.lessThan a b c d => (a, b, c, d)

/-- Modelled from the spec: scalar multiplication of a `Count` scales every
component and preserves exact/upper-bound kind. -/
def Count.smulN (n : Nat) : Count → Count
  | Count.is a b c d => Count.is (n * a) (n * b) (n * c) (n * d)
  | Count.lessThan a b c d => Count.lessThan (n * a) (n * b) (n * c) (n * d)

/-- Modelled from the spec: addition of two `Count`s adds componentwise; the
sum is exact only when both summands are exact. -/
def Count.add (x y : Count) : Count :=
  match x, y with
  | Count.is a b c d, Count.is e f g h => Count.is (a + e) (b + f) (c + g) (d + h)
  | x, y =>
      match x.components, y.components with
      | (a, b, c, d), (e, f, g, h) => Count.lessThan (a + e) (b + f) (c + g) (d + h)

/-- The `Metrics::count` cost model for `pow_wrapped` (source lines 45-57),
parameterized by the bit-widths of the base (`wI`) and exponent (`wM`) types
and by the cost model of `mul_wrapped` (which lives outside the provided
sources). -/
def metricsCount (wI wM : Nat) (mulCount : Mode × Mode → Count)
    (modes : Mode × Mode) : Count :=
  match modes with
  | (Mode.Constant, Mode.Constant) => Count.is wI 0 0 0
  | (Mode.Constant, _) | (_, Mode.Constant) =>
      Count.add (Count.smulN (2 * wM) (mulCount modes)) (Count.is (2 * wI) 0 wI wI)
  | (_, _) =>
      Count.add (Count.smulN (2 * wM) (mulCount modes)) (Count.is (2 * wI) 0 wI wI)

/-! ### Byte serialization of `CallOperator` and `Call`

Bytes are modelled as natural numbers in a list.  `Locator`, `Identifier`,
`Operand` and `Register` live outside the provided sources; they are
modelled as abstract payload types equipped with a byte codec. -/

/-- Modelled from the spec: an external payload type's little-endian byte
codec (`write_le`/`read_le` of `Locator`, `Identifier`, `Operand`,
`Register`, all outside the provided sources). -/
structure Codec (α : Type) where
  write : α → List Nat
  read : List Nat → Except String (α × List Nat)

/-- A codec reads back exactly what it wrote, leaving the remainder. -/
def ReadsBack {α : Type} (c : Codec α) : Prop :=
  ∀ (a : α) (rest : List Nat), c.read (c.write a ++ rest) = Except.ok (a, rest)

/-- Reading one byte from the stream (`u8::read_le`). -/
def readU8 : List Nat → Except String (Nat × List Nat)
  | [] => Except.error ("Failed to read u8.")
  | b :: rest => Except.ok (b, rest)

/-- The operator of a call instruction: a non-local locator or a local
resource identifier (source lines 25-30). -/
inductive CallOperator (L R : Type) where
  | Locator : L → CallOperator L R
  | Resource : R → CallOperator L R
deriving DecidableEq

/-- `CallOperator::read_le` (source lines 77-86): one discriminant byte, `0`
for `Locator`, `1` for `Resource`, anything else is an error. -/
def CallOperator.read_le {L R : Type} (cl : Codec L) (cr : Codec R)
    (bytes : List Nat) : Except String (CallOperator L R × List Nat) :=
  match readU8 bytes with
  | Except.error e => Except.error e
  | Except.ok (variant, rest) =>
      match variant with
      | 0 =>
          match cl.read rest with
          | Except.error e => Except.error e
          | Except.ok (l, rest2) => Except.ok (CallOperator.Locator l, rest2)
      | 1 =>
          match cr.read rest with
          | Except.error e => Except.error e
          | Except.ok (r, rest2) => Except.ok (CallOperator.Resource r, rest2)
      | _ => Except.error ("Failed to read CallOperator. Invalid variant.")

/-- `CallOperator::write_le` (source lines 91-106): the discriminant byte
followed by the variant's payload. -/
def CallOperator.write_le {L R : Type} (cl : Codec L) (cr : Codec R) :
    CallOperator L R → List Nat
  | CallOperator.Locator l => 0 :: cl.write l
  | CallOperator.Resource r => 1 :: cr.write r

/-- The `call` instruction: an operator, operand list and destination
register list (source lines 112-119). -/
structure Call (L R O G : Type) where
  operator : CallOperator L R
  operands : List O
  destinations : List G
deriving DecidableEq

/-- Reading `n` consecutive payloads (the `for _ in 0..num` loops of
`Call::read_le`). -/
def readMany {α : Type} (rd : List Nat → Except String (α × List Nat)) :
    Nat → List Nat → Except String (List α × List Nat)
  | 0, bytes => Except.ok ([], bytes)
  | n + 1, bytes =>
      match rd bytes with
      | Except.error e => Except.error e
      | Except.ok (a, rest) =>
          match readMany rd n rest with
          | Except.error e => Except.error e
          | Except.ok (as, rest2) => Except.ok (a :: as, rest2)

/-- `Call::read_le` (source lines 263-297): operator, operand count byte
(bounded by `N::MAX_OPERANDS`), operands, destination count byte (same
bound), destinations. -/
def Call.read_le {L R O G : Type} (maxOperands : Nat) (cl : Codec L)
    (cr : Codec R) (co : Codec O) (cg : Codec G) (bytes : List Nat) :
    Except String (Call L R O G × List Nat) :=
  match CallOperator.read_le cl cr bytes with
  | Except.error e => Except.error e
  | Except.ok (operator, r1) =>
      match readU8 r1 with
      | Except.error e => Except.error e
      | Except.ok (numOperands, r2) =>
          if numOperands > maxOperands then
            Except.error ("The number of operands must be <= " ++ toString maxOperands)
          else
            match readMany co.read numOperands r2 with
            | Except.error e => Except.error e
            | Except.ok (operands, r3) =>
                match readU8 r3 with
                | Except.error e => Except.error e
                | Except.ok (numDestinations, r4) =>
                    if numDestinations > maxOperands then
                      Except.error
                        ("The number of destinations must be <= " ++ toString maxOperands)
                    else
                      match readMany cg.read numDestinations r4 with
                      | Except.error e => Except.error e
                      | Except.ok (destinations, r5) =>
                          Except.ok
                            ({ operator := operator, operands := operands,
                               destinations := destinations }, r5)

/-- `Call::write_le` (source lines 302-322): bound checks on both lists,
then operator bytes, operand count as `u8`, operand bytes, destination
count as `u8`, destination bytes. -/
def Call.write_le {L R O G : Type} (maxOperands : Nat) (cl : Codec L)
    (cr : Codec R) (co : Codec O) (cg : Codec G) (c : Call L R O G) :
    Except String (List Nat) :=
  if c.operands.length > maxOperands then
    Except.error ("The number of operands must be <= " ++ toString maxOperands)
  else if c.destinations.length > maxOperands then
    Except.error ("The number of destinations must be <= " ++ toString maxOperands)
  else
    Except.ok (CallOperator.write_le cl cr c.operator
      ++ c.operands.length % 256 :: ((c.operands.map co.write).flatten
      ++ c.destinations.length % 256 :: (c.destinations.map cg.write).flatten))

/-- The trivial payload codec on `Unit`, used to instantiate the abstract
payload codecs on concrete inputs. -/
def unitCodec : Codec Unit :=
  { write := fun _ => [], read := fun bytes => Except.ok ((), bytes) }

/-! ## Theorems -/

theorem natOfBitsLe_lt (l : List Bool) : natOfBitsLe l < 2 ^ l.length := by
  induction l with
  | nil => simp [natOfBitsLe]
  | cons b rest ih =>
      simp only [natOfBitsLe, List.length_cons, pow_succ]
      cases b <;> simp <;> omega

theorem mul_sq_pow (a b k : Nat) : a * b * (b * b) ^ k = a * b ^ (2 * k + 1) := by
  have hk : k + k + 1 = 2 * k + 1 := by omega
  calc a * b * (b * b) ^ k = a * (b ^ (k + k) * b) := by
        rw [mul_pow, ← pow_add]; ring
    _ = a * b ^ (k + k + 1) := by rw [← pow_succ]
    _ = a * b ^ (2 * k + 1) := by rw [hk]

theorem mul_sq_pow_even (a b k : Nat) : a * (b * b) ^ k = a * b ^ (2 * k) := by
  have hk : k + k = 2 * k := by omega
  rw [mul_pow, ← pow_add, hk]

theorem wrappingPowAux_spec (w : Nat) :
    ∀ exp, 1 ≤ exp → ∀ acc base,
      wrappingPowAux w acc base exp = acc * base ^ exp % 2 ^ w := by
  intro exp
  induction exp using Nat.strong_induction_on with
  | _ exp ih =>
    intro hexp acc base
    unfold wrappingPowAux
    by_cases h : 1 < exp
    · simp only [if_pos h]
      have hdiv : exp / 2 < exp := Nat.div_lt_self (by omega) (by omega)
      have hone : 1 ≤ exp / 2 := by omega
      rw [ih (exp / 2) hdiv hone]
      by_cases hp : exp % 2 = 1
      · simp only [if_pos hp]
        have hmod : (acc * base % 2 ^ w) * (base * base % 2 ^ w) ^ (exp / 2)
            ≡ acc * base * (base * base) ^ (exp / 2) [MOD 2 ^ w] :=
          Nat.ModEq.mul (Nat.mod_modEq _ _)
            (Nat.ModEq.pow _ (Nat.mod_modEq _ _))
        have hexp2 : 2 * (exp / 2) + 1 = exp := by omega
        calc (acc * base % 2 ^ w) * (base * base % 2 ^ w) ^ (exp / 2) % 2 ^ w
            = acc * base * (base * base) ^ (exp / 2) % 2 ^ w := hmod
          _ = acc * base ^ exp % 2 ^ w := by rw [mul_sq_pow, hexp2]
      · simp only [if_neg hp]
        have hmod : acc * (base * base % 2 ^ w) ^ (exp / 2)
            ≡ acc * (base * base) ^ (exp / 2) [MOD 2 ^ w] :=
          Nat.ModEq.mul (Nat.ModEq.refl acc)
            (Nat.ModEq.pow _ (Nat.mod_modEq _ _))
        have hexp2 : 2 * (exp / 2) = exp := by omega
        calc acc * (base * base % 2 ^ w) ^ (exp / 2) % 2 ^ w
            = acc * (base * base) ^ (exp / 2) % 2 ^ w := hmod
          _ = acc * base ^ exp % 2 ^ w := by rw [mul_sq_pow_even, hexp2]
    · have h1 : exp = 1 := by omega
      subst h1
      simp

theorem wrapping_pow_spec (w : Nat) (hw : 0 < w) (base exp : Nat) :
    wrapping_pow w base exp = base ^ exp % 2 ^ w := by
  unfold wrapping_pow
  by_cases h0 : exp = 0
  · subst h0
    have h2 : 1 < 2 ^ w := Nat.one_lt_two_pow_iff.mpr (by omega)
    simp [Nat.mod_eq_of_lt h2]
  · rw [if_neg h0, wrappingPowAux_spec w exp (by omega) 1 base, one_mul]

/-- The value component of one ladder iteration: squaring then conditional
multiplication by the base tracks the running power of the base. -/
theorem powStep_fst (w base : Nat) (st : Nat × List LadderOp) (bit : Bool)
    (e : Nat) (h : st.1 = base ^ e % 2 ^ w) :
    (powStep w base st bit).1 = base ^ (2 * e + (if bit then 1 else 0)) % 2 ^ w := by
  unfold powStep ternary mul_wrapped
  have hsq : st.1 * st.1 % 2 ^ w = base ^ (2 * e) % 2 ^ w := by
    rw [h]
    have : (base ^ e % 2 ^ w) * (base ^ e % 2 ^ w) ≡ base ^ e * base ^ e [MOD 2 ^ w] :=
      Nat.ModEq.mul (Nat.mod_modEq _ _) (Nat.mod_modEq _ _)
    calc (base ^ e % 2 ^ w) * (base ^ e % 2 ^ w) % 2 ^ w
        = base ^ e * base ^ e % 2 ^ w := this
      _ = base ^ (2 * e) % 2 ^ w := by rw [← pow_add, two_mul]
  cases bit with
  | false => simpa using hsq
  | true =>
      simp only [if_pos rfl]
      have : base ^ (2 * e) % 2 ^ w * base ≡ base ^ (2 * e) * base [MOD 2 ^ w] :=
        Nat.ModEq.mul (Nat.mod_modEq _ _) (Nat.ModEq.refl base)
      simp only [hsq]
      calc base ^ (2 * e) % 2 ^ w * base % 2 ^ w
          = base ^ (2 * e) * base % 2 ^ w := this
        _ = base ^ (2 * e + 1) % 2 ^ w := by rw [pow_succ]

/-- The ladder fold computes the running power of the base, where the
exponent is accumulated over the processed bits most-significant-first. -/
theorem foldl_powStep_fst (w base : Nat) :
    ∀ (bits : List Bool) (e : Nat) (st : Nat × List LadderOp),
      st.1 = base ^ e % 2 ^ w →
      (List.foldl (powStep w base) st bits).1
        = base ^ (List.foldl (fun n b => 2 * n + (if b then 1 else 0)) e bits) % 2 ^ w := by
  intro bits
  induction bits with
  | nil => intro e st h; simpa using h
  | cons b rest ih =>
      intro e st h
      simp only [List.foldl_cons]
      exact ih (2 * e + (if b then 1 else 0)) _ (powStep_fst w base st b e h)

/-- Accumulating exponent bits most-significant-first over the reversal of a
little-endian bit list recovers the little-endian value. -/
theorem foldl_msb_reverse :
    ∀ (l : List Bool) (e : Nat),
      List.foldl (fun n b => 2 * n + (if b then 1 else 0)) e l.reverse
        = e * 2 ^ l.length + natOfBitsLe l := by
  intro l
  induction l with
  | nil => intro e; simp [natOfBitsLe]
  | cons b rest ih =>
      intro e
      simp only [List.reverse_cons, List.foldl_append, ih, List.foldl_cons,
        List.foldl_nil, natOfBitsLe, List.length_cons, pow_succ]
      cases b <;> simp <;> ring

/-- Shared value lemma: for any operand modes, `pow_wrapped` ejects the
native wrapping power of the ejected operand values — provided the width is
positive and the exponent's declared bit-width is at most 32. -/
theorem pow_wrapped_fst (w : Nat) (hw : 0 < w) (a b : CInteger)
    (hb : b.bits_le.length ≤ 32) :
    (pow_wrapped w a b).map Prod.fst
      = some (natOfBitsLe a.bits_le ^ natOfBitsLe b.bits_le % 2 ^ w) := by
  unfold pow_wrapped
  by_cases hc : a.mode = Mode.Constant ∧ b.mode = Mode.Constant
  · have hlt : natOfBitsLe b.bits_le < 2 ^ 32 :=
      lt_of_lt_of_le (natOfBitsLe_lt _) (Nat.pow_le_pow_right (by omega) hb)
    rw [if_pos hc]
    unfold to_u32
    rw [if_pos hlt]
    simp [wrapping_pow_spec w hw]
  · have h2 : 1 < 2 ^ w := Nat.one_lt_two_pow_iff.mpr (by omega)
    have hinit : ((1, ([] : List LadderOp)) : Nat × List LadderOp).1
        = natOfBitsLe a.bits_le ^ 0 % 2 ^ w := by
      simp [Nat.mod_eq_of_lt h2]
    rw [if_neg hc]
    have hfold := foldl_powStep_fst w (natOfBitsLe a.bits_le)
      b.bits_le.reverse 0 (1, []) hinit
    rw [foldl_msb_reverse] at hfold
    simp only [zero_mul, zero_add] at hfold
    simp only [Option.map_some']
    exact congrArg some hfold

theorem foldl_powStep_snd (w base : Nat) :
    ∀ (bits : List Bool) (st : Nat × List LadderOp),
      (List.foldl (powStep w base) st bits).2 = st.2 ++ ladderTrace bits := by
  intro bits
  induction bits with
  | nil => intro st; simp [ladderTrace]
  | cons b rest ih =>
      intro st
      simp only [List.foldl_cons, ih, ladderTrace]
      unfold powStep
      simp

theorem ladderTrace_countP_square :
    ∀ l : List Bool, List.countP isSquare (ladderTrace l) = l.length := by
  intro l
  induction l with
  | nil => simp [ladderTrace]
  | cons b rest ih =>
      simp [ladderTrace, List.countP_cons, isSquare, ih]

theorem ladderTrace_countP_mulBase :
    ∀ l : List Bool, List.countP isMulBase (ladderTrace l) = l.length := by
  intro l
  induction l with
  | nil => simp [ladderTrace]
  | cons b rest ih =>
      simp [ladderTrace, List.countP_cons, isMulBase, ih]

theorem ladderTrace_countP_select :
    ∀ l : List Bool, List.countP isSelect (ladderTrace l) = l.length := by
  intro l
  induction l with
  | nil => simp [ladderTrace]
  | cons b rest ih =>
      simp [ladderTrace, List.countP_cons, isSelect, ih]

/-- The selection recorded for iteration `i` of the ladder is driven by the
`i`-th processed exponent bit. -/
theorem ladderTrace_select_get :
    ∀ (l : List Bool) (i : Nat),
      (ladderTrace l).get? (3 * i + 2) = (l.get? i).map LadderOp.select := by
  intro l
  induction l with
  | nil => intro i; simp [ladderTrace]
  | cons b rest ih =>
      intro i
      cases i with
      | zero => simp [ladderTrace]
      | succ j =>
          have h3 : 3 * (j + 1) + 2 = (3 * j + 2) + 3 := by ring
          rw [h3]
          simp only [ladderTrace, List.get?_cons_succ, List.get?]
          exact ih j

theorem natOfBitsLe_bitsLeOfNat :
    ∀ (w v : Nat), natOfBitsLe (bitsLeOfNat w v) = v % 2 ^ w := by
  intro w
  induction w with
  | zero => intro v; simp [bitsLeOfNat, natOfBitsLe, Nat.mod_one]
  | succ u ih =>
      intro v
      have hp : v % 2 ^ (u + 1) = v % 2 + 2 * (v / 2 % 2 ^ u) := by
        rw [pow_succ, mul_comm (2 ^ u) 2, Nat.mod_mul]
      rcases Nat.mod_two_eq_zero_or_one v with hv | hv <;>
        simp [bitsLeOfNat, natOfBitsLe, ih, hv, hp]

theorem callOperator_read_write {L R : Type} (cl : Codec L) (cr : Codec R)
    (hcl : ReadsBack cl) (hcr : ReadsBack cr) (op : CallOperator L R)
    (rest : List Nat) :
    CallOperator.read_le cl cr (CallOperator.write_le cl cr op ++ rest)
      = Except.ok (op, rest) := by
  cases op with
  | Locator l =>
      simp [CallOperator.write_le, CallOperator.read_le, readU8, hcl l rest]
  | Resource r =>
      simp [CallOperator.write_le, CallOperator.read_le, readU8, hcr r rest]

theorem readMany_writes {α : Type} (c : Codec α) (hc : ReadsBack c) :
    ∀ (as : List α) (rest : List Nat),
      readMany c.read as.length ((as.map c.write).flatten ++ rest)
        = Except.ok (as, rest) := by
  intro as
  induction as with
  | nil => intro rest; simp [readMany]
  | cons a as ih =>
      intro rest
      simp only [List.map_cons, List.flatten_cons, List.length_cons, readMany,
        List.append_assoc, hc a _, ih rest]

theorem unitCodec_readsBack : ReadsBack unitCodec := by
  intro a rest
  rfl

/-! ## Claim theorems -/

/-- Claim C1: for every base-integer width, every exponent of magnitude
width (at most 32 bits), every pair of operand values and every combination
of operand modes, the value ejected from `pow_wrapped(base, exponent)`
equals the native wrapping power `base ^ exponent mod 2 ^ I::BITS`. -/
theorem pow_wrapped_matches_native_power (w : Nat) (a b : CInteger)
    (hw : 0 < w) (hb : b.bits_le.length ≤ 32) :
    (pow_wrapped w a b).map Prod.fst
      = some (natOfBitsLe a.bits_le ^ natOfBitsLe b.bits_le % 2 ^ w) :=
  pow_wrapped_fst w hw a b hb

theorem pow_wrapped_matches_native_power_witness :
    (pow_wrapped 8
        { mode := Mode.Private,
          bits_le := [false, true, false, false, true, false, false, false] }
        { mode := Mode.Public,
          bits_le := [true, true, false, false, false, false, false, false] }).map Prod.fst
      = some (natOfBitsLe [false, true, false, false, true, false, false, false]
          ^ natOfBitsLe [true, true, false, false, false, false, false, false] % 2 ^ 8) :=
  pow_wrapped_matches_native_power 8
    { mode := Mode.Private,
      bits_le := [false, true, false, false, true, false, false, false] }
    { mode := Mode.Public,
      bits_le := [true, true, false, false, false, false, false, false] }
    (by decide) (by decide)

/-- Claim C3: when the operands are not both constant, `pow_wrapped` runs
the fixed square-and-multiply ladder: its trace is exactly, per exponent
bit scanned most-significant-first, one unconditional squaring, one wrapped
multiplication by the base and one selection on that bit; in particular the
numbers of squarings, multiplications and selections all equal the
exponent's declared bit-width, for every exponent value. -/
theorem pow_wrapped_ladder_structure (w : Nat) (a b : CInteger)
    (h : ¬(a.mode = Mode.Constant ∧ b.mode = Mode.Constant)) :
    (∃ v, pow_wrapped w a b = some (v, ladderTrace b.bits_le.reverse))
    ∧ List.countP isSquare (ladderTrace b.bits_le.reverse) = b.bits_le.length
    ∧ List.countP isMulBase (ladderTrace b.bits_le.reverse) = b.bits_le.length
    ∧ List.countP isSelect (ladderTrace b.bits_le.reverse) = b.bits_le.length
    ∧ ∀ i : Nat, (ladderTrace b.bits_le.reverse).get? (3 * i + 2)
        = (b.bits_le.reverse.get? i).map LadderOp.select := by
  refine ⟨?_, ?_, ?_, ?_, ?_⟩
  · refine ⟨(List.foldl (powStep w (natOfBitsLe a.bits_le)) (1, [])
      b.bits_le.reverse).1, ?_⟩
    unfold pow_wrapped
    rw [if_neg h]
    have hsnd := foldl_powStep_snd w (natOfBitsLe a.bits_le) b.bits_le.reverse (1, [])
    simp only [List.nil_append] at hsnd
    rw [← hsnd]
  · rw [ladderTrace_countP_square, List.length_reverse]
  · rw [ladderTrace_countP_mulBase, List.length_reverse]
  · rw [ladderTrace_countP_select, List.length_reverse]
  · intro i
    exact ladderTrace_select_get _ i

theorem pow_wrapped_ladder_structure_witness :
    (∃ v, pow_wrapped 8 { mode := Mode.Private, bits_le := [true, false] }
        { mode := Mode.Public, bits_le := [true, false, true] }
      = some (v, ladderTrace ([true, false, true] : List Bool).reverse))
    ∧ List.countP isSquare (ladderTrace ([true, false, true] : List Bool).reverse)
        = ([true, false, true] : List Bool).length
    ∧ List.countP isMulBase (ladderTrace ([true, false, true] : List Bool).reverse)
        = ([true, false, true] : List Bool).length
    ∧ List.countP isSelect (ladderTrace ([true, false, true] : List Bool).reverse)
        = ([true, false, true] : List Bool).length
    ∧ ∀ i : Nat, (ladderTrace ([true, false, true] : List Bool).reverse).get? (3 * i + 2)
        = (([true, false, true] : List Bool).reverse.get? i).map LadderOp.select :=
  pow_wrapped_ladder_structure 8 { mode := Mode.Private, bits_le := [true, false] }
    { mode := Mode.Public, bits_le := [true, false, true] } (by decide)

/-- Claim C4: output-mode inference returns `Constant` when base and
exponent are both constant; `Private` for a constant base with a
non-constant exponent; for a non-constant base and a constant exponent with
known value, `Constant` exactly when that value is zero, else `Private`;
and `Private` when both are non-constant — with no synthesis involved. -/
theorem output_mode_cases (v : Nat) :
    output_mode Mode.Constant (CircuitTypeI.Constant v) = Except.ok Mode.Constant
    ∧ output_mode Mode.Constant CircuitTypeI.Public = Except.ok Mode.Private
    ∧ output_mode Mode.Constant CircuitTypeI.Private = Except.ok Mode.Private
    ∧ output_mode Mode.Public (CircuitTypeI.Constant v)
        = Except.ok (if v = 0 then Mode.Constant else Mode.Private)
    ∧ output_mode Mode.Private (CircuitTypeI.Constant v)
        = Except.ok (if v = 0 then Mode.Constant else Mode.Private)
    ∧ output_mode Mode.Public CircuitTypeI.Public = Except.ok Mode.Private
    ∧ output_mode Mode.Public CircuitTypeI.Private = Except.ok Mode.Private
    ∧ output_mode Mode.Private CircuitTypeI.Public = Except.ok Mode.Private
    ∧ output_mode Mode.Private CircuitTypeI.Private = Except.ok Mode.Private :=
  ⟨rfl, rfl, rfl, rfl, rfl, rfl, rfl, rfl, rfl⟩

/-- Claim C5: with both operands constant, `pow_wrapped` returns the native
wrapping power of the ejected values (exponent cast to 32 bits), performing
no ladder operations; the witnessed result is a constant integer carrying
that value; and the cost model declares `Count::is(I::BITS, 0, 0, 0)` for
the `(Constant, Constant)` mode pair. -/
theorem pow_wrapped_constant_fast_path (w wM : Nat)
    (mulCount : Mode × Mode → Count) (a b : CInteger) (hw : 0 < w)
    (ha : a.mode = Mode.Constant) (hb : b.mode = Mode.Constant)
    (hlen : b.bits_le.length ≤ 32) :
    pow_wrapped w a b
        = some (wrapping_pow w (natOfBitsLe a.bits_le) (natOfBitsLe b.bits_le),
            ([] : List LadderOp))
    ∧ (witnessConstant w
        (wrapping_pow w (natOfBitsLe a.bits_le) (natOfBitsLe b.bits_le))).mode
        = Mode.Constant
    ∧ natOfBitsLe (witnessConstant w
        (wrapping_pow w (natOfBitsLe a.bits_le) (natOfBitsLe b.bits_le))).bits_le
        = wrapping_pow w (natOfBitsLe a.bits_le) (natOfBitsLe b.bits_le)
    ∧ metricsCount w wM mulCount (Mode.Constant, Mode.Constant) = Count.is w 0 0 0 := by
  have hlt : natOfBitsLe b.bits_le < 2 ^ 32 :=
    lt_of_lt_of_le (natOfBitsLe_lt _) (Nat.pow_le_pow_right (by omega) hlen)
  refine ⟨?_, rfl, ?_, rfl⟩
  · unfold pow_wrapped
    rw [if_pos ⟨ha, hb⟩]
    unfold to_u32
    rw [if_pos hlt]
    rfl
  · simp only [witnessConstant]
    rw [natOfBitsLe_bitsLeOfNat, wrapping_pow_spec w hw]
    exact Nat.mod_mod_of_dvd _ dvd_rfl

theorem pow_wrapped_constant_fast_path_witness :
    pow_wrapped 8 { mode := Mode.Constant, bits_le := [true, true] }
        { mode := Mode.Constant, bits_le := [false, true] }
        = some (wrapping_pow 8 (natOfBitsLe [true, true]) (natOfBitsLe [false, true]),
            ([] : List LadderOp))
    ∧ (witnessConstant 8
        (wrapping_pow 8 (natOfBitsLe [true, true]) (natOfBitsLe [false, true]))).mode
        = Mode.Constant
    ∧ natOfBitsLe (witnessConstant 8
        (wrapping_pow 8 (natOfBitsLe [true, true]) (natOfBitsLe [false, true]))).bits_le
        = wrapping_pow 8 (natOfBitsLe [true, true]) (natOfBitsLe [false, true])
    ∧ metricsCount 8 8 (fun _ => Count.is 0 0 0 0) (Mode.Constant, Mode.Constant)
        = Count.is 8 0 0 0 :=
  pow_wrapped_constant_fast_path 8 8 (fun _ => Count.is 0 0 0 0)
    { mode := Mode.Constant, bits_le := [true, true] }
    { mode := Mode.Constant, bits_le := [false, true] }
    (by decide) rfl rfl (by decide)

/-- Claim C6: for every base `x` and every combination of operand modes,
`x.pow_wrapped(0) = 1` (including `0 ^ 0 = 1`), `x.pow_wrapped(1) = x`,
`x.pow_wrapped(2) = mul_wrapped(x, x)` and
`x.pow_wrapped(3) = mul_wrapped(mul_wrapped(x, x), x)`; overflow truncates
silently and no error is ever produced (the result is always `some`). -/
theorem pow_wrapped_identity_laws (w : Nat) (a b0 b1 b2 b3 : CInteger)
    (hw : 0 < w) (ha : natOfBitsLe a.bits_le < 2 ^ w)
    (hl0 : b0.bits_le.length ≤ 32) (hv0 : natOfBitsLe b0.bits_le = 0)
    (hl1 : b1.bits_le.length ≤ 32) (hv1 : natOfBitsLe b1.bits_le = 1)
    (hl2 : b2.bits_le.length ≤ 32) (hv2 : natOfBitsLe b2.bits_le = 2)
    (hl3 : b3.bits_le.length ≤ 32) (hv3 : natOfBitsLe b3.bits_le = 3) :
    (pow_wrapped w a b0).map Prod.fst = some 1
    ∧ (pow_wrapped w a b1).map Prod.fst = some (natOfBitsLe a.bits_le)
    ∧ (pow_wrapped w a b2).map Prod.fst
        = some (mul_wrapped w (natOfBitsLe a.bits_le) (natOfBitsLe a.bits_le))
    ∧ (pow_wrapped w a b3).map Prod.fst
        = some (mul_wrapped w
            (mul_wrapped w (natOfBitsLe a.bits_le) (natOfBitsLe a.bits_le))
            (natOfBitsLe a.bits_le)) := by
  have h2 : 1 < 2 ^ w := Nat.one_lt_two_pow_iff.mpr (by omega)
  refine ⟨?_, ?_, ?_, ?_⟩
  · rw [pow_wrapped_fst w hw a b0 hl0, hv0]
    simp [Nat.mod_eq_of_lt h2]
  · rw [pow_wrapped_fst w hw a b1 hl1, hv1]
    simp [Nat.mod_eq_of_lt ha]
  · rw [pow_wrapped_fst w hw a b2 hl2, hv2]
    unfold mul_wrapped
    rw [pow_two]
  · rw [pow_wrapped_fst w hw a b3 hl3, hv3]
    unfold mul_wrapped
    congr 1
    have hmod : (natOfBitsLe a.bits_le * natOfBitsLe a.bits_le % 2 ^ w)
        * natOfBitsLe a.bits_le
        ≡ natOfBitsLe a.bits_le * natOfBitsLe a.bits_le * natOfBitsLe a.bits_le
          [MOD 2 ^ w] :=
      Nat.ModEq.mul (Nat.mod_modEq _ _) (Nat.ModEq.refl _)
    calc natOfBitsLe a.bits_le ^ 3 % 2 ^ w
        = natOfBitsLe a.bits_le * natOfBitsLe a.bits_le * natOfBitsLe a.bits_le
            % 2 ^ w := by ring_nf
      _ = (natOfBitsLe a.bits_le * natOfBitsLe a.bits_le % 2 ^ w)
            * natOfBitsLe a.bits_le % 2 ^ w := hmod.symm

theorem pow_wrapped_identity_laws_witness :
    (pow_wrapped 8 { mode := Mode.Public, bits_le := [true, false, true] }
        { mode := Mode.Constant, bits_le := [false, false] }).map Prod.fst = some 1
    ∧ (pow_wrapped 8 { mode := Mode.Public, bits_le := [true, false, true] }
        { mode := Mode.Private, bits_le := [true] }).map Prod.fst
        = some (natOfBitsLe [true, false, true])
    ∧ (pow_wrapped 8 { mode := Mode.Public, bits_le := [true, false, true] }
        { mode := Mode.Public, bits_le := [false, true] }).map Prod.fst
        = some (mul_wrapped 8 (natOfBitsLe [true, false, true])
            (natOfBitsLe [true, false, true]))
    ∧ (pow_wrapped 8 { mode := Mode.Public, bits_le := [true, false, true] }
        { mode := Mode.Constant, bits_le := [true, true] }).map Prod.fst
        = some (mul_wrapped 8
            (mul_wrapped 8 (natOfBitsLe [true, false, true])
              (natOfBitsLe [true, false, true]))
            (natOfBitsLe [true, false, true])) :=
  pow_wrapped_identity_laws 8 { mode := Mode.Public, bits_le := [true, false, true] }
    { mode := Mode.Constant, bits_le := [false, false] }
    { mode := Mode.Private, bits_le := [true] }
    { mode := Mode.Public, bits_le := [false, true] }
    { mode := Mode.Constant, bits_le := [true, true] }
    (by decide) (by decide) (by decide) (by decide) (by decide) (by decide)
    (by decide) (by decide) (by decide) (by decide)

/-- Claim C7: output-mode inference halts exactly when it is asked to
resolve a non-constant base against an exponent whose `CircuitType` reports
mode `Constant` but does not carry a value — and since a `CircuitType` of
mode `Constant` always carries its value, this never happens: inference
returns a `Mode` without failing on every input. -/
theorem output_mode_halt_characterization (m : Mode) (t : CircuitTypeI) :
    (∃ msg, output_mode m t = Except.error msg)
      ↔ (m ≠ Mode.Constant ∧ CircuitTypeI.mode t = Mode.Constant
          ∧ ∀ v, t ≠ CircuitTypeI.Constant v) := by
  constructor
  · intro hmsg
    exfalso
    obtain ⟨msg, hmsg⟩ := hmsg
    cases m <;> cases t <;> simp [output_mode, CircuitTypeI.mode] at hmsg
  · intro hcase
    exfalso
    obtain ⟨hm, hmode, hval⟩ := hcase
    cases t with
    | Constant v => exact hval v rfl
    | Public => simp [CircuitTypeI.mode] at hmode
    | Private => simp [CircuitTypeI.mode] at hmode

/-- Claim C8: for every magnitude width (8, 16 or 32 bits), the `to_u32`
cast of the exponent's value always succeeds, so the `unwrap` in the
constant-constant fast path is unreachable as an error and `pow_wrapped`
never fails to produce a value. -/
theorem magnitude_to_u32_total (wM : Nat) (hwM : wM = 8 ∨ wM = 16 ∨ wM = 32)
    (w : Nat) (a b : CInteger) (hb : b.bits_le.length = wM) :
    to_u32 (natOfBitsLe b.bits_le) = some (natOfBitsLe b.bits_le)
    ∧ pow_wrapped w a b ≠ none := by
  have hle : b.bits_le.length ≤ 32 := by
    rcases hwM with h | h | h <;> omega
  have hlt : natOfBitsLe b.bits_le < 2 ^ 32 :=
    lt_of_lt_of_le (natOfBitsLe_lt _) (Nat.pow_le_pow_right (by omega) hle)
  constructor
  · unfold to_u32
    rw [if_pos hlt]
  · unfold pow_wrapped
    by_cases hc : a.mode = Mode.Constant ∧ b.mode = Mode.Constant
    · rw [if_pos hc]
      unfold to_u32
      rw [if_pos hlt]
      simp
    · rw [if_neg hc]
      simp

theorem magnitude_to_u32_total_witness :
    to_u32 (natOfBitsLe [true, true, true, true, true, true, true, true])
        = some (natOfBitsLe [true, true, true, true, true, true, true, true])
    ∧ pow_wrapped 8 { mode := Mode.Constant, bits_le := [true, false] }
        { mode := Mode.Constant,
          bits_le := [true, true, true, true, true, true, true, true] } ≠ none :=
  magnitude_to_u32_total 8 (Or.inl rfl) 8
    { mode := Mode.Constant, bits_le := [true, false] }
    { mode := Mode.Constant,
      bits_le := [true, true, true, true, true, true, true, true] }
    (by decide)

/-- Claim C9: decoding a `CallOperator` fails with a descriptive error on
every discriminant byte other than `0` and `1`; decoding a `Call` fails
with a descriptive error whenever the encoded operand count or destination
count exceeds `N::MAX_OPERANDS`; in each case no value is produced. -/
theorem call_decode_error_paths {L R O G : Type} (cl : Codec L) (cr : Codec R)
    (co : Codec O) (cg : Codec G) (maxOperands : Nat) :
    (∀ (v : Nat) (rest : List Nat), v ≠ 0 → v ≠ 1 →
        CallOperator.read_le cl cr (v :: rest)
          = Except.error ("Failed to read CallOperator. Invalid variant."))
    ∧ (ReadsBack cl → ReadsBack cr →
        ∀ (op : CallOperator L R) (n : Nat) (tail : List Nat), maxOperands < n →
          Call.read_le maxOperands cl cr co cg
              (CallOperator.write_le cl cr op ++ n :: tail)
            = Except.error
                ("The number of operands must be <= " ++ toString maxOperands))
    ∧ (ReadsBack cl → ReadsBack cr → ReadsBack co →
        ∀ (op : CallOperator L R) (ops : List O) (n : Nat) (tail : List Nat),
          ops.length ≤ maxOperands → maxOperands < n →
          Call.read_le maxOperands cl cr co cg
              (CallOperator.write_le cl cr op
                ++ ops.length :: ((ops.map co.write).flatten ++ n :: tail))
            = Except.error
                ("The number of destinations must be <= " ++ toString maxOperands)) := by
  refine ⟨?_, ?_, ?_⟩
  · intro v rest hv0 hv1
    obtain ⟨k, rfl⟩ : ∃ k, v = k + 2 := ⟨v - 2, by omega⟩
    rfl
  · intro hcl hcr op n tail hn
    simp [Call.read_le, callOperator_read_write cl cr hcl hcr, readU8, hn]
  · intro hcl hcr hco op ops n tail hle hn
    have hnle : ¬ (maxOperands < ops.length) := by omega
    simp [Call.read_le, callOperator_read_write cl cr hcl hcr, readU8,
      readMany_writes co hco, hnle, hn]

theorem call_decode_error_paths_witness :
    (CallOperator.read_le unitCodec unitCodec ((2 : Nat) :: ([] : List Nat))
        = Except.error ("Failed to read CallOperator. Invalid variant."))
    ∧ (Call.read_le 8 unitCodec unitCodec unitCodec unitCodec
        (CallOperator.write_le unitCodec unitCodec (CallOperator.Resource ())
          ++ (9 : Nat) :: ([] : List Nat))
        = Except.error ("The number of operands must be <= " ++ toString 8))
    ∧ (Call.read_le 8 unitCodec unitCodec unitCodec unitCodec
        (CallOperator.write_le unitCodec unitCodec (CallOperator.Resource ())
          ++ ([] : List Unit).length
              :: ((([] : List Unit).map unitCodec.write).flatten
                ++ (9 : Nat) :: ([] : List Nat)))
        = Except.error ("The number of destinations must be <= " ++ toString 8)) :=
  ⟨(call_decode_error_paths unitCodec unitCodec unitCodec unitCodec 8).1
      2 [] (by decide) (by decide),
    (call_decode_error_paths unitCodec unitCodec unitCodec unitCodec 8).2.1
      unitCodec_readsBack unitCodec_readsBack (CallOperator.Resource ()) 9 []
      (by decide),
    (call_decode_error_paths unitCodec unitCodec unitCodec unitCodec 8).2.2
      unitCodec_readsBack unitCodec_readsBack unitCodec_readsBack
      (CallOperator.Resource ()) [] 9 [] (by decide) (by decide)⟩

/-- Claim C10: serializing a `Call` whose operand and destination counts
are within the declared bound (itself below 256) and then deserializing the
produced bytes succeeds and returns the original `Call`, for any payload
codecs that read back what they write. -/
theorem call_bytes_round_trip {L R O G : Type} (cl : Codec L) (cr : Codec R)
    (co : Codec O) (cg : Codec G) (maxOperands : Nat) (hmax : maxOperands < 256)
    (hcl : ReadsBack cl) (hcr : ReadsBack cr) (hco : ReadsBack co)
    (hcg : ReadsBack cg) (c : Call L R O G)
    (hops : c.operands.length ≤ maxOperands)
    (hdst : c.destinations.length ≤ maxOperands) (rest : List Nat) :
    ∃ bs, Call.write_le maxOperands cl cr co cg c = Except.ok bs
      ∧ Call.read_le maxOperands cl cr co cg (bs ++ rest) = Except.ok (c, rest) := by
  have hnop : ¬ (c.operands.length > maxOperands) := by omega
  have hndst : ¬ (c.destinations.length > maxOperands) := by omega
  have hmo : c.operands.length % 256 = c.operands.length :=
    Nat.mod_eq_of_lt (by omega)
  have hmd : c.destinations.length % 256 = c.destinations.length :=
    Nat.mod_eq_of_lt (by omega)
  refine ⟨CallOperator.write_le cl cr c.operator
      ++ c.operands.length % 256 :: ((c.operands.map co.write).flatten
      ++ c.destinations.length % 256 :: (c.destinations.map cg.write).flatten),
    ?_, ?_⟩
  · unfold Call.write_le
    rw [if_neg hnop, if_neg hndst]
  · simp only [List.append_assoc, List.cons_append, hmo, hmd]
    simp [Call.read_le, callOperator_read_write cl cr hcl hcr, readU8,
      readMany_writes co hco, readMany_writes cg hcg, hnop, hndst]

theorem call_bytes_round_trip_witness :
    ∃ bs, Call.write_le 8 unitCodec unitCodec unitCodec unitCodec
        { operator := CallOperator.Locator (), operands := [(), ()],
          destinations := [()] }
        = Except.ok bs
      ∧ Call.read_le 8 unitCodec unitCodec unitCodec unitCodec (bs ++ [])
        = Except.ok
            (({ operator := CallOperator.Locator (), operands := [(), ()],
                destinations := [()] } : Call Unit Unit Unit Unit), []) :=
  call_bytes_round_trip unitCodec unitCodec unitCodec unitCodec 8 (by decide)
    unitCodec_readsBack unitCodec_readsBack unitCodec_readsBack unitCodec_readsBack
    { operator := CallOperator.Locator (), operands := [(), ()],
      destinations := [()] }
    (by decide) (by decide) []

end SnarkVM
